import Mathlib

/-!
Verification of the demper price-matching engine and the sales analytics
helpers of the kaspi panel repository.

The repository ships the database migrations declaring the engine's tables
(`products.price_step`, `price_history` with `price_decrease`,
`cumulative_loss`, `change_reason`) and the frontend analytics code
(`src/services/wahaService.ts`), but the engine implementation itself
(guardrail policy, ledger append, per-product state machine) is not part of
the sources.  The engine-side definitions below are therefore modelled from
the specification; the `SalesService` definitions are translated directly
from `wahaService.ts`.

Prices are integers in the minor currency unit (tenge), embedded as `Int`.
-/

/-- Modelled from the spec: §3 `changeReason` enumeration of
`PriceHistoryEntry` (`competitor_match`, `margin_floor_hit`,
`manual_override`, `no_change`); the repository only declares the
`price_history.change_reason` column. -/
inductive ChangeReason where
  | competitor_match
  | margin_floor_hit
  | manual_override
  | no_change
deriving DecidableEq, Repr

/-- Modelled from the spec: §4.1 rule 2, the target price is
`competitorPrice - priceStep` (undercut by exactly one step) if
`competitorPrice > minPrice`, else `minPrice`. -/
def Guardrail.targetOf (competitorPrice minPrice priceStep : Int) : Int :=
  if minPrice < competitorPrice then competitorPrice - priceStep else minPrice

/-- Modelled from the spec: §4.1 rule 3, clamp the target to
`[minPrice, maxPrice]`, where `maxPrice` may be unset (no ceiling). -/
def Guardrail.clampTo (minPrice : Int) (maxPrice : Option Int) (t : Int) : Int :=
  match maxPrice with
  | none => max minPrice t
  | some mp => min (max minPrice t) mp

/-- Modelled from the spec: §4.1 rule 4, round the target down to the
nearest multiple-of-`priceStep` offset from `minPrice`, never below
`minPrice`. -/
def Guardrail.roundToStep (minPrice priceStep t : Int) : Int :=
  minPrice + (t - minPrice) / priceStep * priceStep

/-- Modelled from the spec: §4.1 Guardrail Policy
`decide(currentPrice, competitorPrice, minPrice, maxPrice, priceStep) ->
(newPrice, reason)`, rules 1-6 in priority order; the engine code is not in
the repository sources. -/
def Guardrail.decide (currentPrice : Int) (competitorPrice : Option Int)
    (minPrice : Int) (maxPrice : Option Int) (priceStep : Int) :
    Int × ChangeReason :=
  match competitorPrice with
  | none => (currentPrice, ChangeReason.no_change)
  | some cp =>
    let target :=
      Guardrail.roundToStep minPrice priceStep
        (Guardrail.clampTo minPrice maxPrice (Guardrail.targetOf cp minPrice priceStep))
    if target = currentPrice then (currentPrice, ChangeReason.no_change)
    else if target = minPrice ∧ target < currentPrice then
      (target, ChangeReason.margin_floor_hit)
    else (target, ChangeReason.competitor_match)

/-- Modelled from the spec: §3 `TrackedProduct` fields; the repository only
declares the `products.price_step` and `products.max_profit` columns. -/
structure TrackedProduct where
  id : Nat
  article : String
  currentPrice : Int
  cost : Int
  minMargin : Int
  maxProfit : Option Int
  priceStep : Int
  checkIntervalSeconds : Nat
  isActive : Bool
deriving DecidableEq, Repr

/-- Modelled from the spec: glossary, "Margin floor (minPrice): lowest price
the policy will ever set, derived from cost + configured minimum margin". -/
def TrackedProduct.minPrice (p : TrackedProduct) : Int :=
  p.cost + p.minMargin

/-- Modelled from the spec: §3 `PriceHistoryEntry`; the repository declares
the matching `price_history` columns (`price`, `price_decrease`,
`cumulative_loss`, `change_reason`, `created_at`) in its migrations. -/
structure PriceHistoryEntry where
  productId : Nat
  price : Int
  priceDecrease : Int
  cumulativeLoss : Int
  changeReason : ChangeReason
  createdAt : Nat
deriving DecidableEq, Repr

/-- The ledger entries belonging to one product, in ledger (append) order. -/
def entriesFor (pid : Nat) (l : List PriceHistoryEntry) : List PriceHistoryEntry :=
  l.filter (fun e => e.productId == pid)

/-- Modelled from the spec: §4.2, the prior entry's `cumulativeLoss` for a
product, `0` if no prior entry. -/
def priorCumulativeLoss (pid : Nat) (l : List PriceHistoryEntry) : Int :=
  match (entriesFor pid l).getLast? with
  | none => 0
  | some e => e.cumulativeLoss

/-- Modelled from the spec: §4.2 Ledger `append(productId, newPrice, reason)`:
`priceDecrease = max(0, previousPrice - newPrice)` from the product's last
known price, `cumulativeLoss` = prior entry's `cumulativeLoss` (0 if none)
plus `priceDecrease`; the append implementation is not in the sources. -/
def ledgerAppend (l : List PriceHistoryEntry) (pid : Nat)
    (newPrice previousPrice : Int) (reason : ChangeReason) (now : Nat) :
    List PriceHistoryEntry :=
  let dec := max 0 (previousPrice - newPrice)
  l ++ [{ productId := pid, price := newPrice, priceDecrease := dec,
          cumulativeLoss := priorCumulativeLoss pid l + dec,
          changeReason := reason, createdAt := now }]

/-- Modelled from the spec: §4.3 `ObservationError` kinds. -/
inductive ObservationError where
  | NotFound
  | Timeout
  | Blocked
  | Transient
deriving DecidableEq, Repr

/-- Modelled from the spec: §4.4 state machine phases
`Idle → Observing → Deciding → Applying → Recording → Idle`. -/
inductive Phase where
  | Idle
  | Observing
  | Deciding
  | Applying
  | Recording
deriving DecidableEq, Repr

/-- The shared mutable state a cycle may touch (spec §5): the product's
`currentPrice` and the ledger. -/
structure EngineState where
  product : TrackedProduct
  ledger : List PriceHistoryEntry
deriving DecidableEq, Repr

/-- Modelled from the spec: §4.4 one Pricing Decision Engine cycle.  The
observation result, the apply outcome and the recording outcome are inputs
(they belong to external collaborators).  A failed observation (any
`ObservationError`, `NotFound` included) feeds an absent competitor price to
the policy; `no_change` means no apply call and no ledger entry; a failed
apply short-circuits with no state change; a failed recording leaves the
price applied (the in-memory price updated) but writes no entry.  The cycle
always terminates back in `Idle`. -/
def runCycle (st : EngineState) (obs : Except ObservationError Int)
    (applyOk recordOk : Bool) (now : Nat) : EngineState × Phase :=
  let p := st.product
  let competitor : Option Int :=
    match obs with
    | Except.ok v => some v
    | Except.error _ => none
  let d := Guardrail.decide p.currentPrice competitor p.minPrice p.maxProfit p.priceStep
  if d.2 = ChangeReason.no_change then (st, Phase.Idle)
  else if applyOk = false then (st, Phase.Idle)
  else
    let p2 := { p with currentPrice := d.1 }
    if recordOk = false then ({ product := p2, ledger := st.ledger }, Phase.Idle)
    else ({ product := p2,
            ledger := ledgerAppend st.ledger p.id d.1 p.currentPrice d.2 now }, Phase.Idle)

/-- Ledgers reachable by a sequence of appends from the empty ledger;
every engine cycle writes through `ledgerAppend`, so every ledger the
system produces is of this shape. -/
inductive LedgerReachable : List PriceHistoryEntry → Prop where
  | nil : LedgerReachable []
  | app (l : List PriceHistoryEntry) (pid : Nat) (newPrice previousPrice : Int)
      (reason : ChangeReason) (now : Nat) :
      LedgerReachable l →
      LedgerReachable (ledgerAppend l pid newPrice previousPrice reason now)

/-- Partial sums of a list of decreases starting from the running total `c`:
the cumulative-loss column a correctly appended ledger carries. -/
def cumSumsFrom (c : Int) : List Int → List Int
  | [] => []
  | d :: ds => (c + d) :: cumSumsFrom (c + d) ds

/-- Modelled from the spec: §3 lifecycle of the ledger, the storage
operations that exist are appending an entry and the cascading deletion of a
parent product (`ON DELETE CASCADE` in `create_price_history.sql`); entries
are never updated. -/
inductive LedgerOp where
  | append (pid : Nat) (newPrice previousPrice : Int) (reason : ChangeReason) (now : Nat)
  | deleteProduct (pid : Nat)
deriving DecidableEq, Repr

/-- Effect of one ledger storage operation. -/
def applyOp (l : List PriceHistoryEntry) : LedgerOp → List PriceHistoryEntry
  | LedgerOp.append pid np pp r t => ledgerAppend l pid np pp r t
  | LedgerOp.deleteProduct pid => l.filter (fun e => e.productId != pid)

/-- Modelled from the spec: §3 and §6, the mutations a `TrackedProduct`
undergoes after creation: the engine updates `currentPrice`; configuration
edits update `minMargin`/`maxProfit`/`priceStep`/`checkIntervalSeconds` with
fields as in §3 (`minMargin` ≥ 0, `priceStep` > 0); deactivation clears
`isActive` (the product is not deleted). -/
inductive ProductStep : TrackedProduct → TrackedProduct → Prop where
  | enginePrice (p : TrackedProduct) (newPrice : Int) :
      ProductStep p { p with currentPrice := newPrice }
  | configure (p : TrackedProduct) (minMargin priceStep : Int)
      (maxProfit : Option Int) (interval : Nat)
      (hm : 0 ≤ minMargin) (hs : 1 ≤ priceStep) :
      ProductStep p { p with minMargin := minMargin, maxProfit := maxProfit,
                             priceStep := priceStep,
                             checkIntervalSeconds := interval }
  | deactivate (p : TrackedProduct) :
      ProductStep p { p with isActive := false }

/-- Concrete product of spec §8 Scenario A: current price 10000, margin
floor 9000, step 50, no ceiling. -/
def prodA : TrackedProduct :=
  { id := 1, article := "A", currentPrice := 10000, cost := 9000,
    minMargin := 0, maxProfit := none, priceStep := 50,
    checkIntervalSeconds := 300, isActive := true }

/-- A concrete two-append ledger for product 1 (10000 → 9450 → 9400). -/
def demoLedger : List PriceHistoryEntry :=
  ledgerAppend
    (ledgerAppend [] 1 9450 10000 ChangeReason.competitor_match 0)
    1 9400 9450 ChangeReason.competitor_match 1

/-- The second entry of `demoLedger`. -/
def demoEntry1 : PriceHistoryEntry :=
  { productId := 1, price := 9400, priceDecrease := 50, cumulativeLoss := 600,
    changeReason := ChangeReason.competitor_match, createdAt := 1 }

/-- A concrete ledger entry used to instantiate the append-only theorem. -/
def wEntry : PriceHistoryEntry :=
  { productId := 7, price := 500, priceDecrease := 20, cumulativeLoss := 20,
    changeReason := ChangeReason.competitor_match, createdAt := 3 }

/-- Translated from `src/src/services/wahaService.ts`: `SalesOrder`
(`date`, `count`, `amount`). -/
structure SalesOrder where
  date : String
  count : Int
  amount : Int
deriving DecidableEq, Repr

/-- Translated from `src/src/services/wahaService.ts`: `SalesProduct`;
all fields optional in the source interface. -/
structure SalesProduct where
  name : Option String
  product_name : Option String
  quantity : Option Int
  amount : Option Int
deriving DecidableEq, Repr

/-- Translated from `src/src/services/wahaService.ts`: `SalesMetrics` as
populated by `calculateMetrics`.  `avgOrderValue` is the one field the
source computes with division, embedded as a rational. -/
structure SalesMetrics where
  totalOrders : Int
  totalRevenue : Int
  avgOrderValue : Rat
  itemsSold : Int
deriving DecidableEq, Repr

/-- Translated from `SalesService.calculateMetrics` in
`src/src/services/wahaService.ts` (lines 425-436): reduces over the orders
for `totalOrders` and `totalRevenue`, guards the average against a zero
divisor, and sets `itemsSold` to `totalOrders`. -/
def calculateMetrics (orders : List SalesOrder) : SalesMetrics :=
  let totalOrders : Int := orders.foldl (fun sum order => sum + order.count) 0
  let totalRevenue : Int := orders.foldl (fun sum order => sum + order.amount) 0
  let avgOrderValue : Rat :=
    if 0 < totalOrders then (totalRevenue : Rat) / (totalOrders : Rat) else 0
  { totalOrders := totalOrders, totalRevenue := totalRevenue,
    avgOrderValue := avgOrderValue, itemsSold := totalOrders }

/-- The sort key of `getTopProducts`: `p.amount || 0` in the source. -/
def jsAmount (p : SalesProduct) : Int :=
  p.amount.getD 0

/-- Translated from `SalesService.getTopProducts` in
`src/src/services/wahaService.ts` (lines 441-445): stable sort with
comparator `(b.amount || 0) - (a.amount || 0)` (descending by amount,
missing amounts as 0), then `slice(0, limit)`. -/
def getTopProducts (products : List SalesProduct) (limit : Nat := 10) :
    List SalesProduct :=
  (products.mergeSort (fun a b => decide (jsAmount b ≤ jsAmount a))).take limit

/-- `order.date.split('T')[0]` from `aggregateSalesByDate`:
the date part of the order's timestamp. -/
def splitDateT (s : String) : String :=
  (s.splitOn "T").headD ""

/-- One update of the aggregation record: JS objects keep string keys in
insertion order, so the record is an insertion-ordered association list;
an existing key is updated in place, a new key is appended. -/
def bumpDate (acc : List (String × Int × Int)) (date : String)
    (count amount : Int) : List (String × Int × Int) :=
  match acc with
  | [] => [(date, count, amount)]
  | (d, c, a) :: rest =>
    if d = date then (d, c + count, a + amount) :: rest
    else (d, c, a) :: bumpDate rest date count amount

/-- Translated from `SalesService.aggregateSalesByDate` in
`src/src/services/wahaService.ts` (lines 405-420): per-day totals of
`count` and `amount`, keyed by the date part of `order.date`. -/
def aggregateSalesByDate (orders : List SalesOrder) :
    List (String × Int × Int) :=
  orders.foldl (fun acc order => bumpDate acc (splitDateT order.date) order.count order.amount) []

/-- One point of the chart data produced by `formatDataForCharts`. -/
structure ChartPoint where
  date : String
  orders : Int
  revenue : Int
deriving DecidableEq, Repr

/-- Model of `new Date(s).getTime()` as used by the `formatDataForCharts`
comparator: on the fixed-format ISO dates the aggregation keys carry
(`YYYY-MM-DD`), the numeric value of the digits is strictly monotone in the
actual timestamp, so sorting by it is sorting by date. -/
def dateKey (s : String) : Nat :=
  s.foldl (fun n ch => if ch.isDigit then n * 10 + (ch.toNat - 48) else n) 0

/-- Translated from `SalesService.formatDataForCharts` in
`src/src/services/wahaService.ts` (lines 450-464): aggregates by day, maps
the entries to chart points and sorts them ascending by the parsed date. -/
def formatDataForCharts (orders : List SalesOrder) : List ChartPoint :=
  ((aggregateSalesByDate orders).map
      (fun e => { date := e.1, orders := e.2.1, revenue := e.2.2 })).mergeSort
    (fun a b => decide (dateKey a.date ≤ dateKey b.date))

theorem Guardrail.decide_fst (currentPrice cp minPrice : Int)
    (maxPrice : Option Int) (priceStep : Int) :
    (Guardrail.decide currentPrice (some cp) minPrice maxPrice priceStep).1
      = Guardrail.roundToStep minPrice priceStep
          (Guardrail.clampTo minPrice maxPrice
            (Guardrail.targetOf cp minPrice priceStep)) := by
  simp only [Guardrail.decide]
  split
  · simp_all
  · split <;> simp_all

theorem Guardrail.clampTo_bounds (minPrice : Int) (maxPrice : Option Int)
    (t : Int) (hminmax : ∀ mp, maxPrice = some mp → minPrice ≤ mp) :
    minPrice ≤ Guardrail.clampTo minPrice maxPrice t ∧
    ∀ mp, maxPrice = some mp → Guardrail.clampTo minPrice maxPrice t ≤ mp := by
  cases maxPrice with
  | none => exact ⟨le_max_left _ _, fun mp h => by cases h⟩
  | some mp =>
    refine ⟨le_min (le_max_left _ _) (hminmax mp rfl), fun mp2 h => ?_⟩
    cases h
    exact min_le_right _ _

theorem Guardrail.roundToStep_bounds (minPrice priceStep t : Int)
    (hstep : 1 ≤ priceStep) (hmnt : minPrice ≤ t) :
    minPrice ≤ Guardrail.roundToStep minPrice priceStep t ∧
    Guardrail.roundToStep minPrice priceStep t ≤ t ∧
    priceStep ∣ (Guardrail.roundToStep minPrice priceStep t - minPrice) := by
  have hq : 0 ≤ (t - minPrice) / priceStep * priceStep :=
    mul_nonneg (Int.ediv_nonneg (by omega) (by omega)) (by omega)
  have hle : (t - minPrice) / priceStep * priceStep ≤ t - minPrice :=
    Int.ediv_mul_le _ (by omega)
  refine ⟨by unfold Guardrail.roundToStep; omega,
          by unfold Guardrail.roundToStep; omega, ?_⟩
  have hEq : Guardrail.roundToStep minPrice priceStep t - minPrice
      = (t - minPrice) / priceStep * priceStep := by
    unfold Guardrail.roundToStep; ring
  rw [hEq]
  exact Dvd.intro_left _ rfl

/-- C1: for every input with a competitor price present, `priceStep ≥ 1` and
`minPrice ≤ maxPrice` whenever `maxPrice` is set, the Guardrail Policy
returns a price that is at least `minPrice`, at most `maxPrice` when one is
set (no upper bound otherwise), and a multiple-of-`priceStep` offset from
`minPrice`. -/
theorem Guardrail.decide_price_in_bounds
    (currentPrice competitorPrice minPrice : Int) (maxPrice : Option Int)
    (priceStep : Int) (hstep : 1 ≤ priceStep)
    (hminmax : ∀ mp, maxPrice = some mp → minPrice ≤ mp) :
    minPrice ≤ (Guardrail.decide currentPrice (some competitorPrice) minPrice maxPrice priceStep).1 ∧
    (∀ mp, maxPrice = some mp →
      (Guardrail.decide currentPrice (some competitorPrice) minPrice maxPrice priceStep).1 ≤ mp) ∧
    priceStep ∣ ((Guardrail.decide currentPrice (some competitorPrice) minPrice maxPrice priceStep).1 - minPrice) := by
  rw [Guardrail.decide_fst]
  obtain ⟨h1, h2⟩ := Guardrail.clampTo_bounds minPrice maxPrice
    (Guardrail.targetOf competitorPrice minPrice priceStep) hminmax
  obtain ⟨r1, r2, r3⟩ := Guardrail.roundToStep_bounds minPrice priceStep _ hstep h1
  exact ⟨r1, fun mp hmp => le_trans r2 (h2 mp hmp), r3⟩

/-- Instantiation of `Guardrail.decide_price_in_bounds` at Scenario A with a
12000 ceiling. -/
theorem Guardrail.decide_price_in_bounds_witness :
    (1 : Int) ≤ 50 ∧
    (9000 : Int) ≤ (Guardrail.decide 10000 (some 9500) 9000 (some 12000) 50).1 :=
  ⟨by decide,
    (Guardrail.decide_price_in_bounds 10000 9500 9000 (some 12000) 50
      (by decide) (fun mp h => by injection h with h; omega)).1⟩

/-- C2: Scenario A: `currentPrice=10000, competitorPrice=9500,
minPrice=9000, priceStep=50`, no ceiling → new price 9450, reason
`competitor_match`, and the ledger entry recorded for the change has
`priceDecrease = 550`. -/
theorem scenario_a_price_and_ledger :
    Guardrail.decide 10000 (some 9500) 9000 none 50
      = (9450, ChangeReason.competitor_match) ∧
    (runCycle ⟨prodA, []⟩ (Except.ok 9500) true true 0).1.product.currentPrice = 9450 ∧
    (runCycle ⟨prodA, []⟩ (Except.ok 9500) true true 0).1.ledger
      = [{ productId := 1, price := 9450, priceDecrease := 550,
           cumulativeLoss := 550, changeReason := ChangeReason.competitor_match,
           createdAt := 0 }] := by
  refine ⟨by decide, by decide, by decide⟩

/-- C4: with the competitor price absent (any observation error,
`NotFound` included) the policy returns `(currentPrice, no_change)` and the
engine cycle leaves the whole state untouched, writing no ledger entry. -/
theorem observation_absent_no_change (st : EngineState) (e : ObservationError)
    (applyOk recordOk : Bool) (now : Nat)
    (currentPrice minPrice : Int) (maxPrice : Option Int) (priceStep : Int) :
    Guardrail.decide currentPrice none minPrice maxPrice priceStep
      = (currentPrice, ChangeReason.no_change) ∧
    runCycle st (Except.error e) applyOk recordOk now = (st, Phase.Idle) :=
  ⟨rfl, rfl⟩

/-- C5: when the `Applying` step fails the cycle ends in `Idle` with no
partial state change: the ledger gets no entry and the in-memory
`currentPrice` keeps the last marketplace-confirmed value. -/
theorem apply_failed_no_partial_state (st : EngineState)
    (obs : Except ObservationError Int) (recordOk : Bool) (now : Nat) :
    runCycle st obs false recordOk now = (st, Phase.Idle) ∧
    (runCycle st obs false recordOk now).1.ledger = st.ledger ∧
    (runCycle st obs false recordOk now).1.product.currentPrice
      = st.product.currentPrice := by
  have h : runCycle st obs false recordOk now = (st, Phase.Idle) := by
    unfold runCycle
    dsimp only
    split
    · rfl
    · rfl
  exact ⟨h, by rw [h], by rw [h]⟩

/-- C6: ledger entries are append-only: across any sequence of storage
operations, an entry once written either survives unchanged or some
operation was the cascading deletion of its parent product. -/
theorem ledger_append_only (ops : List LedgerOp) (l : List PriceHistoryEntry)
    (e : PriceHistoryEntry) (he : e ∈ l) :
    e ∈ ops.foldl applyOp l ∨ LedgerOp.deleteProduct e.productId ∈ ops := by
  induction ops generalizing l with
  | nil => exact Or.inl he
  | cons op ops ih =>
    rw [List.foldl_cons]
    cases op with
    | append pid np pp r t =>
      have hmem : e ∈ applyOp l (LedgerOp.append pid np pp r t) := by
        simp only [applyOp, ledgerAppend]
        exact List.mem_append_left _ he
      rcases ih _ hmem with h | h
      · exact Or.inl h
      · exact Or.inr (List.mem_cons_of_mem _ h)
    | deleteProduct pid =>
      by_cases hpid : e.productId = pid
      · subst hpid
        exact Or.inr (List.mem_cons_self _ _)
      · have hmem : e ∈ applyOp l (LedgerOp.deleteProduct pid) := by
          simp only [applyOp, List.mem_filter]
          exact ⟨he, by simp [hpid]⟩
        rcases ih _ hmem with h | h
        · exact Or.inl h
        · exact Or.inr (List.mem_cons_of_mem _ h)

/-- Instantiation of `ledger_append_only`: a concrete entry survives an
append for another product. -/
theorem ledger_append_only_witness :
    wEntry ∈ [wEntry] ∧
    (wEntry ∈ List.foldl applyOp [wEntry]
        [LedgerOp.append 2 100 150 ChangeReason.competitor_match 5] ∨
      LedgerOp.deleteProduct wEntry.productId
        ∈ [LedgerOp.append 2 100 150 ChangeReason.competitor_match 5]) :=
  ⟨by decide, ledger_append_only _ _ _ (by decide)⟩

/-- C7: `priceStep ≥ 1` is an invariant: it holds of a validly created
product and is preserved by every mutation a product undergoes (engine
price updates, configuration edits, deactivation). -/
theorem priceStep_ge_one (p0 p : TrackedProduct) (h0 : 1 ≤ p0.priceStep)
    (h : Relation.ReflTransGen ProductStep p0 p) : 1 ≤ p.priceStep := by
  induction h with
  | refl => exact h0
  | tail hsteps hstep ih =>
    cases hstep with
    | enginePrice np => exact ih
    | configure mm ps mp iv hm hs => exact hs
    | deactivate => exact ih

/-- Instantiation of `priceStep_ge_one` after one engine price update of
Scenario A's product. -/
theorem priceStep_ge_one_witness :
    1 ≤ prodA.priceStep ∧
    1 ≤ ({ prodA with currentPrice := 9450 } : TrackedProduct).priceStep :=
  ⟨by decide, priceStep_ge_one prodA _ (by decide)
      (Relation.ReflTransGen.single (ProductStep.enginePrice prodA 9450))⟩

theorem getLast?_getD_cons (xs : List Int) (x c : Int) :
    ((x :: xs).getLast?).getD c = (xs.getLast?).getD x := by
  induction xs generalizing x c with
  | nil => rfl
  | cons y ys ih =>
    rw [List.getLast?_cons_cons, ih y c, ih y x]

theorem cumSumsFrom_concat (ds : List Int) (c d : Int) :
    cumSumsFrom c (ds ++ [d])
      = cumSumsFrom c ds ++ [((cumSumsFrom c ds).getLast?).getD c + d] := by
  induction ds generalizing c with
  | nil => rfl
  | cons d0 ds ih =>
    simp only [List.cons_append, cumSumsFrom, List.append_eq, ih (c + d0),
      getLast?_getD_cons]

theorem cumSumsFrom_getElem? (ds : List Int) (c : Int) (n : Nat)
    (hn : n < ds.length) :
    (cumSumsFrom c ds)[n]? = some (c + (ds.take (n + 1)).sum) := by
  induction ds generalizing c n with
  | nil => simp at hn
  | cons d ds ih =>
    cases n with
    | zero => simp [cumSumsFrom]
    | succ n =>
      have hn2 : n < ds.length := by simpa using hn
      simp only [cumSumsFrom, List.getElem?_cons_succ]
      rw [ih (c + d) n hn2]
      simp [List.take_succ_cons, add_assoc]

theorem priorCumulativeLoss_eq (pid : Nat) (l : List PriceHistoryEntry) :
    priorCumulativeLoss pid l
      = (((entriesFor pid l).map PriceHistoryEntry.cumulativeLoss).getLast?).getD 0 := by
  rw [List.getLast?_map]
  unfold priorCumulativeLoss
  cases (entriesFor pid l).getLast? <;> rfl

theorem entriesFor_append (pid pid0 : Nat) (l : List PriceHistoryEntry)
    (np pp : Int) (r : ChangeReason) (t : Nat) :
    entriesFor pid (ledgerAppend l pid0 np pp r t)
      = entriesFor pid l ++
        (if pid0 = pid then
          [{ productId := pid0, price := np,
             priceDecrease := max 0 (pp - np),
             cumulativeLoss := priorCumulativeLoss pid0 l + max 0 (pp - np),
             changeReason := r, createdAt := t }]
         else []) := by
  unfold ledgerAppend entriesFor
  rw [List.filter_append]
  congr 1
  split
  · rename_i hp
    simp [List.filter_cons, hp]
  · rename_i hp
    simp [List.filter_cons, hp]

theorem reachable_cum_eq (l : List PriceHistoryEntry) (h : LedgerReachable l)
    (pid : Nat) :
    (entriesFor pid l).map PriceHistoryEntry.cumulativeLoss
      = cumSumsFrom 0 ((entriesFor pid l).map PriceHistoryEntry.priceDecrease) := by
  induction h with
  | nil => rfl
  | app l0 pid0 np pp r t hr ih =>
    rw [entriesFor_append]
    by_cases hpid : pid0 = pid
    · subst hpid
      rw [if_pos rfl]
      simp only [List.map_append, List.map_cons, List.map_nil]
      rw [cumSumsFrom_concat, ← ih]
      simp [priorCumulativeLoss_eq]
    · simp only [if_neg hpid, List.append_nil]
      exact ih

theorem reachable_dec_nonneg (l : List PriceHistoryEntry)
    (h : LedgerReachable l) : ∀ e ∈ l, 0 ≤ e.priceDecrease := by
  induction h with
  | nil =>
    intro e he
    simp at he
  | app l0 pid np pp r t hr ih =>
    intro e he
    simp only [ledgerAppend] at he
    rcases List.mem_append.mp he with h1 | h1
    · exact ih e h1
    · simp at h1
      subst h1
      exact le_max_left 0 _

theorem sum_take_le_sum_take (ds : List Int) (hpos : ∀ x ∈ ds, 0 ≤ x)
    (i j : Nat) (hij : i ≤ j) : (ds.take i).sum ≤ (ds.take j).sum := by
  have h1 : List.take i (List.take j ds) = List.take i ds := by
    rw [List.take_take, min_eq_left hij]
  have hsplit : ds.take j = ds.take i ++ (ds.take j).drop i := by
    conv_lhs => rw [← List.take_append_drop i (ds.take j)]
    rw [h1]
  rw [hsplit, List.sum_append]
  have hnn : 0 ≤ ((ds.take j).drop i).sum :=
    List.sum_nonneg (fun x hx =>
      hpos x (List.mem_of_mem_take (List.mem_of_mem_drop hx)))
  omega

/-- C3: on every ledger the system can produce, for every product:
consecutive entries satisfy `cumulativeLoss n = cumulativeLoss (n-1) +
priceDecrease n` (with `priceDecrease` alone at the first entry), every
entry's `cumulativeLoss` is the sum of all `priceDecrease` values up to it,
and `cumulativeLoss` is non-decreasing across the ordered entries. -/
theorem ledger_cumulative_invariant (l : List PriceHistoryEntry)
    (h : LedgerReachable l) (pid : Nat) :
    (∀ (i : Nat) (ei ei1 : PriceHistoryEntry), (entriesFor pid l)[i]? = some ei →
        (entriesFor pid l)[i + 1]? = some ei1 →
        ei1.cumulativeLoss = ei.cumulativeLoss + ei1.priceDecrease) ∧
    (∀ e0 : PriceHistoryEntry, (entriesFor pid l)[0]? = some e0 →
        e0.cumulativeLoss = e0.priceDecrease) ∧
    (∀ (n : Nat) (en : PriceHistoryEntry), (entriesFor pid l)[n]? = some en →
        en.cumulativeLoss
          = (((entriesFor pid l).take (n + 1)).map PriceHistoryEntry.priceDecrease).sum) ∧
    (∀ (i j : Nat) (ei ej : PriceHistoryEntry), i ≤ j →
        (entriesFor pid l)[i]? = some ei →
        (entriesFor pid l)[j]? = some ej →
        ei.cumulativeLoss ≤ ej.cumulativeLoss) := by
  have hmap := reachable_cum_eq l h pid
  have hdec : ∀ e ∈ entriesFor pid l, 0 ≤ e.priceDecrease := fun e he =>
    reachable_dec_nonneg l h e (List.mem_filter.mp he).1
  have hsum : ∀ (n : Nat) (en : PriceHistoryEntry), (entriesFor pid l)[n]? = some en →
      en.cumulativeLoss
        = (((entriesFor pid l).take (n + 1)).map PriceHistoryEntry.priceDecrease).sum := by
    intro n en hn
    have hlen : n < (entriesFor pid l).length := (List.getElem?_eq_some.mp hn).1
    have h1 : ((entriesFor pid l).map PriceHistoryEntry.cumulativeLoss)[n]?
        = some en.cumulativeLoss := by
      rw [List.getElem?_map, hn]
      rfl
    rw [hmap, cumSumsFrom_getElem? _ 0 n (by simpa using hlen)] at h1
    have h2 := Option.some.inj h1
    rw [List.map_take]
    omega
  refine ⟨?_, ?_, hsum, ?_⟩
  · intro i ei ei1 hi hi1
    have h1 := hsum i ei hi
    have h2 := hsum (i + 1) ei1 hi1
    rw [List.take_succ, hi1] at h2
    simp only [Option.toList_some, List.map_append, List.map_cons, List.map_nil,
      List.sum_append, List.sum_cons, List.sum_nil] at h2
    omega
  · intro e0 h0
    have h1 := hsum 0 e0 h0
    rw [List.take_succ, List.take_zero, h0] at h1
    simpa using h1
  · intro i j ei ej hij hi hj
    have h1 := hsum i ei hi
    have h2 := hsum j ej hj
    rw [List.map_take] at h1 h2
    have hmono := sum_take_le_sum_take
      ((entriesFor pid l).map PriceHistoryEntry.priceDecrease)
      (by intro x hx
          rcases List.mem_map.mp hx with ⟨e, he, rfl⟩
          exact hdec e he)
      (i + 1) (j + 1) (by omega)
    omega

theorem demoLedger_reachable : LedgerReachable demoLedger :=
  LedgerReachable.app _ 1 9400 9450 ChangeReason.competitor_match 1
    (LedgerReachable.app _ 1 9450 10000 ChangeReason.competitor_match 0
      LedgerReachable.nil)

/-- Instantiation of `ledger_cumulative_invariant` on a concrete two-entry
ledger: the second entry's cumulative loss is the sum of both decreases. -/
theorem ledger_cumulative_invariant_witness :
    LedgerReachable demoLedger ∧
    demoEntry1.cumulativeLoss
      = (((entriesFor 1 demoLedger).take 2).map PriceHistoryEntry.priceDecrease).sum :=
  ⟨demoLedger_reachable,
    (ledger_cumulative_invariant demoLedger demoLedger_reachable 1).2.2.1 1
      demoEntry1 (by decide)⟩

theorem foldl_add_eq_sum {α : Type} (f : α → Int) (l : List α) (c : Int) :
    l.foldl (fun s o => s + f o) c = c + (l.map f).sum := by
  induction l generalizing c with
  | nil => simp
  | cons a l ih =>
    simp only [List.foldl_cons, List.map_cons, List.sum_cons, ih]
    omega

/-- C8: `calculateMetrics` returns the sum of the `count` fields as
`totalOrders`, the sum of the `amount` fields as `totalRevenue`, `itemsSold`
equal to `totalOrders`, and an `avgOrderValue` of 0 whenever `totalOrders`
is 0: the division is guarded and never runs with a zero divisor. -/
theorem calculateMetrics_spec (orders : List SalesOrder) :
    (calculateMetrics orders).totalOrders = (orders.map SalesOrder.count).sum ∧
    (calculateMetrics orders).totalRevenue = (orders.map SalesOrder.amount).sum ∧
    (calculateMetrics orders).itemsSold = (calculateMetrics orders).totalOrders ∧
    ((calculateMetrics orders).totalOrders = 0 →
      (calculateMetrics orders).avgOrderValue = 0) := by
  refine ⟨?_, ?_, rfl, ?_⟩
  · simp [calculateMetrics, foldl_add_eq_sum]
  · simp [calculateMetrics, foldl_add_eq_sum]
  · intro h0
    simp only [calculateMetrics] at h0 ⊢
    rw [if_neg (by omega)]

/-- Instantiation of `calculateMetrics_spec` at the empty order list: the
guarded average is 0. -/
theorem calculateMetrics_spec_witness :
    (calculateMetrics []).totalOrders = 0 ∧
    (calculateMetrics []).avgOrderValue = 0 :=
  ⟨rfl, (calculateMetrics_spec []).2.2.2 rfl⟩

theorem jsAmount_le_trans (a b c : SalesProduct)
    (h1 : decide (jsAmount b ≤ jsAmount a) = true)
    (h2 : decide (jsAmount c ≤ jsAmount b) = true) :
    decide (jsAmount c ≤ jsAmount a) = true :=
  decide_eq_true (le_trans (of_decide_eq_true h2) (of_decide_eq_true h1))

theorem jsAmount_le_total (a b : SalesProduct) :
    (decide (jsAmount b ≤ jsAmount a) || decide (jsAmount a ≤ jsAmount b)) = true := by
  rcases le_total (jsAmount b) (jsAmount a) with h | h <;> simp [h]

/-- C9: `getTopProducts` returns at most `limit` products, sorted
non-increasingly by the `amount` field with a missing `amount` read as 0. -/
theorem getTopProducts_spec (products : List SalesProduct) (limit : Nat) :
    (getTopProducts products limit).length ≤ limit ∧
    List.Pairwise (fun a b => jsAmount b ≤ jsAmount a)
      (getTopProducts products limit) := by
  constructor
  · simp only [getTopProducts, List.length_take, List.length_mergeSort]
    exact min_le_left _ _
  · have hs := List.sorted_mergeSort
      (fun a b c h1 h2 => jsAmount_le_trans a b c h1 h2)
      (fun a b => jsAmount_le_total a b) products
    have hs2 : List.Pairwise (fun a b : SalesProduct => jsAmount b ≤ jsAmount a)
        (products.mergeSort (fun a b => decide (jsAmount b ≤ jsAmount a))) :=
      hs.imp (fun h => of_decide_eq_true h)
    exact hs2.take

theorem bumpDate_counts (acc : List (String × Int × Int)) (date : String)
    (count amount : Int) :
    ((bumpDate acc date count amount).map (fun e => e.2.1)).sum
      = (acc.map (fun e => e.2.1)).sum + count := by
  induction acc with
  | nil => simp [bumpDate]
  | cons e rest ih =>
    obtain ⟨d, c, a⟩ := e
    simp only [bumpDate]
    split
    · simp only [List.map_cons, List.sum_cons]
      omega
    · simp only [List.map_cons, List.sum_cons, ih]
      omega

theorem bumpDate_amounts (acc : List (String × Int × Int)) (date : String)
    (count amount : Int) :
    ((bumpDate acc date count amount).map (fun e => e.2.2)).sum
      = (acc.map (fun e => e.2.2)).sum + amount := by
  induction acc with
  | nil => simp [bumpDate]
  | cons e rest ih =>
    obtain ⟨d, c, a⟩ := e
    simp only [bumpDate]
    split
    · simp only [List.map_cons, List.sum_cons]
      omega
    · simp only [List.map_cons, List.sum_cons, ih]
      omega

theorem aggregate_counts (orders : List SalesOrder)
    (acc : List (String × Int × Int)) :
    ((orders.foldl (fun acc2 order =>
          bumpDate acc2 (splitDateT order.date) order.count order.amount) acc).map
        (fun e => e.2.1)).sum
      = (acc.map (fun e => e.2.1)).sum + (orders.map SalesOrder.count).sum := by
  induction orders generalizing acc with
  | nil => simp
  | cons o os ih =>
    simp only [List.foldl_cons, List.map_cons, List.sum_cons]
    rw [ih, bumpDate_counts]
    omega

theorem aggregate_amounts (orders : List SalesOrder)
    (acc : List (String × Int × Int)) :
    ((orders.foldl (fun acc2 order =>
          bumpDate acc2 (splitDateT order.date) order.count order.amount) acc).map
        (fun e => e.2.2)).sum
      = (acc.map (fun e => e.2.2)).sum + (orders.map SalesOrder.amount).sum := by
  induction orders generalizing acc with
  | nil => simp
  | cons o os ih =>
    simp only [List.foldl_cons, List.map_cons, List.sum_cons]
    rw [ih, bumpDate_amounts]
    omega

theorem aggregateSalesByDate_counts (orders : List SalesOrder) :
    ((aggregateSalesByDate orders).map (fun e => e.2.1)).sum
      = (orders.map SalesOrder.count).sum := by
  simpa [aggregateSalesByDate] using aggregate_counts orders []

theorem aggregateSalesByDate_amounts (orders : List SalesOrder) :
    ((aggregateSalesByDate orders).map (fun e => e.2.2)).sum
      = (orders.map SalesOrder.amount).sum := by
  simpa [aggregateSalesByDate] using aggregate_amounts orders []

theorem dateKey_le_trans (a b c : ChartPoint)
    (h1 : decide (dateKey a.date ≤ dateKey b.date) = true)
    (h2 : decide (dateKey b.date ≤ dateKey c.date) = true) :
    decide (dateKey a.date ≤ dateKey c.date) = true :=
  decide_eq_true (le_trans (of_decide_eq_true h1) (of_decide_eq_true h2))

theorem dateKey_le_total (a b : ChartPoint) :
    (decide (dateKey a.date ≤ dateKey b.date)
      || decide (dateKey b.date ≤ dateKey a.date)) = true := by
  rcases le_total (dateKey a.date) (dateKey b.date) with h | h <;> simp [h]

/-- C10: `formatDataForCharts` preserves the totals of the input orders (the
output `revenue` values sum to the input `amount` sum, the output `orders`
values sum to the input `count` sum) and is sorted ascending by date. -/
theorem formatDataForCharts_spec (orders : List SalesOrder) :
    ((formatDataForCharts orders).map ChartPoint.revenue).sum
      = (orders.map SalesOrder.amount).sum ∧
    ((formatDataForCharts orders).map ChartPoint.orders).sum
      = (orders.map SalesOrder.count).sum ∧
    List.Pairwise (fun a b => dateKey a.date ≤ dateKey b.date)
      (formatDataForCharts orders) := by
  have hperm := List.mergeSort_perm
    ((aggregateSalesByDate orders).map
      (fun e => ({ date := e.1, orders := e.2.1, revenue := e.2.2 } : ChartPoint)))
    (fun a b => decide (dateKey a.date ≤ dateKey b.date))
  refine ⟨?_, ?_, ?_⟩
  · simp only [formatDataForCharts]
    rw [(hperm.map ChartPoint.revenue).sum_eq, List.map_map]
    simpa [Function.comp] using aggregateSalesByDate_amounts orders
  · simp only [formatDataForCharts]
    rw [(hperm.map ChartPoint.orders).sum_eq, List.map_map]
    simpa [Function.comp] using aggregateSalesByDate_counts orders
  · have hs := List.sorted_mergeSort
      (fun a b c h1 h2 => dateKey_le_trans a b c h1 h2)
      (fun a b => dateKey_le_total a b)
      ((aggregateSalesByDate orders).map
        (fun e => ({ date := e.1, orders := e.2.1, revenue := e.2.2 } : ChartPoint)))
    exact hs.imp (fun h => of_decide_eq_true h)
